import Mathlib

/-!
Verification of the path-resolution, directory-cursor and error-translation
core of a Go `fs.FS` implementation backed by the GitHub contents API
(`fs.go`, `options.go`).

Strings are modelled by Lean `String` (a wrapper around `List Char`); the
Go standard-library helpers the source calls (`path.Clean`, `path.Join`,
`path.Base`, `strings.Split`, `strings.Trim`, `fs.ValidPath`) are embedded
below on `List Char`.  The GitHub client held by the Go `fsys` struct is
modelled as an explicit `Remote` oracle passed to every operation; the
`context.Context` plumbing carries no data relevant to any claim and is
dropped.  Pagination in `listRepositories` is given explicit fuel, since
the Go loop's termination depends on the remote's answers.
-/

set_option maxRecDepth 2000

/-- Model of Go `strings.Split(s, "/")` on character lists: split at every
`'/'`; the result is never empty and `splitChar [] = [[]]`. -/
def splitChar : List Char → List (List Char)
  | [] => [[]]
  | c :: cs =>
    let r := splitChar cs
    if c = '/' then [] :: r
    else
      match r with
      | s :: rest => (c :: s) :: rest
      | [] => [[c]]

/-- Intercalate a list of segments with `'/'` (inverse of `splitChar`). -/
def joinSegs : List (List Char) → List Char
  | [] => []
  | [s] => s
  | s :: rest => s ++ '/' :: joinSegs rest

/-- A path segment that survives Go `path.Clean` unchanged: nonempty and
neither `"."` nor `".."`. -/
def isPlain (seg : List Char) : Bool :=
  seg ≠ [] && seg ≠ ['.'] && seg ≠ ['.', '.']

/-- The segment-stack loop of Go `path.Clean`: drop empty and `"."`
segments, let `".."` pop the previous segment (kept at the front of a
relative path, dropped at the root of a rooted one). -/
def cleanLoopAux (rooted : Bool) (stack : List (List Char)) :
    List (List Char) → List (List Char)
  | [] => stack.reverse
  | seg :: rest =>
    if seg = [] ∨ seg = ['.'] then cleanLoopAux rooted stack rest
    else if seg = ['.', '.'] then
      match stack with
      | top :: stack' =>
        if top = ['.', '.'] then cleanLoopAux rooted (seg :: stack) rest
        else cleanLoopAux rooted stack' rest
      | [] =>
        if rooted then cleanLoopAux rooted [] rest
        else cleanLoopAux rooted [seg] rest
    else cleanLoopAux rooted (seg :: stack) rest

/-- Model of Go `path.Clean` (the rules of Rob Pike's "Lexical File
Names"): collapse slashes, eliminate `"."` and resolve `".."`. -/
def cleanL (l : List Char) : List Char :=
  if l = [] then ['.']
  else
    let rooted : Bool := decide (l.head? = some '/')
    let out := joinSegs (cleanLoopAux rooted [] (splitChar l))
    if rooted then '/' :: out
    else if out = [] then ['.'] else out

/-- Model of Go `strings.Trim(s, "/")`: drop leading and trailing `'/'`. -/
def trimSlashesL (l : List Char) : List Char :=
  ((l.dropWhile (· = '/')).reverse.dropWhile (· = '/')).reverse

/-- The buffer loop of Go `path.Join`: concatenate elements, inserting a
`'/'` before every element once the buffer is nonempty. -/
def joinBuf : List Char → List (List Char) → List Char
  | buf, [] => buf
  | buf, e :: rest =>
    if buf ≠ [] ∨ e ≠ [] then
      joinBuf (if buf ≠ [] then buf ++ '/' :: e else buf ++ e) rest
    else joinBuf buf rest

/-- Model of Go `path.Join`: `""` when every element is empty, otherwise
`Clean` of the slash-concatenation. -/
def pathJoinL (elems : List (List Char)) : List Char :=
  if elems.all (· = []) then [] else cleanL (joinBuf [] elems)

/-- Model of Go `path.Base`: strip trailing slashes, then keep everything
after the last `'/'`. -/
def pathBaseL (l : List Char) : List Char :=
  if l = [] then ['.']
  else
    let p1 := ((l.reverse.dropWhile (· = '/')).reverse)
    let p2 := ((p1.reverse.takeWhile (· ≠ '/')).reverse)
    if p2 = [] then ['/'] else p2

/-- Go `path.Clean` on `String`. -/
def pathClean (s : String) : String := ⟨cleanL s.data⟩

/-- Go `strings.Trim(s, "/")` on `String`. -/
def trimSlash (s : String) : String := ⟨trimSlashesL s.data⟩

/-- Go `strings.Split(s, "/")` on `String`. -/
def splitSlash (s : String) : List String := (splitChar s.data).map String.mk

/-- Go `path.Join` on `String`. -/
def pathJoin (elems : List String) : String := ⟨pathJoinL (elems.map String.data)⟩

/-- Go `path.Base` on `String`. -/
def pathBase (s : String) : String := ⟨pathBaseL s.data⟩

/-- Model of Go `fs.ValidPath`: `"."`, or slash-separated segments that are
all nonempty and none of `"."`/`".."` (Lean strings are always valid
UTF-8, so the `utf8.ValidString` check of the source is vacuous). -/
def validPath (s : String) : Bool :=
  s = "." || (splitChar s.data).all isPlain

/-- A remote (GitHub API) failure: either an API error response carrying
an HTTP status (`*github.ErrorResponse`), or any other error. -/
inductive RemoteErr where
  | api (status : Nat)
  | other (tag : String)
deriving DecidableEq, Repr

/-- The sentinel causes an `fs.PathError` can carry in this code base:
`fs.ErrInvalid`, `fs.ErrNotExist`, `fs.ErrPermission`, or a fresh
`errors.New` message. -/
inductive BaseErr where
  | errInvalid
  | errNotExist
  | errPermission
  | msg (s : String)
deriving DecidableEq, Repr

/-- Errors surfaced by the filesystem layer: a tagged `fs.PathError`, a
remote error passed through unchanged, or a fresh `errors.New` error
(the "invalid response" invariant failure and content-decode failures). -/
inductive FsError where
  | pathError (op : String) (path : String) (base : BaseErr)
  | raw (e : RemoteErr)
  | simple (m : String)
deriving DecidableEq, Repr

/-- Model of Go `errors.Is(err, fs.ErrNotExist)` over `FsError`
(an `fs.PathError` unwraps to its base cause). -/
def FsError.isNotExist : FsError → Bool
  | .pathError _ _ .errNotExist => true
  | _ => false

/-- `ref` of `fs.go`: (owner, repository, path). -/
structure Ref where
  owner : String
  repo : String
  path : String
deriving DecidableEq, Repr

/-- `ref.join` of `fs.go`: with both owner and repository pinned, the name
is path-joined onto the existing path; otherwise the cleaned, trimmed,
slash-split segments of the name fill owner, then repository, and the
remainder is joined into the path. -/
def Ref.join (r : Ref) (name : String) : Ref :=
  if r.owner ≠ "" ∧ r.repo ≠ "" then
    { r with path := pathJoin [r.path, name] }
  else
    let segments0 := splitSlash (trimSlash (pathClean name))
    let segments := if name = "" ∨ name = "." then [] else segments0
    let oi : String × Nat :=
      if r.owner = "" ∧ 0 < segments.length then (segments.getD 0 "", 1)
      else (r.owner, 0)
    let ri : String × Nat :=
      if r.repo = "" ∧ oi.2 < segments.length then (segments.getD oi.2 "", oi.2 + 1)
      else (r.repo, oi.2)
    let p :=
      if ri.2 < segments.length then pathJoin [r.path, pathJoin (segments.drop ri.2)]
      else r.path
    { owner := oi.1, repo := ri.1, path := p }

/-- Outcome of `ref.validate`: the assertion failure (Go `panic`), an
error, or success. -/
inductive ValidateOut where
  | panicked
  | fail (e : FsError)
  | ok
deriving DecidableEq, Repr

/-- `ref.validate` of `fs.go`. -/
def Ref.validate (r : Ref) (op : String) : ValidateOut :=
  if (r.owner = "" ∧ r.repo ≠ "") ∨ ((r.owner = "" ∨ r.repo = "") ∧ r.path ≠ "") then
    .panicked
  else if r.owner = "" then
    .fail (.pathError op "" (.msg "owner is missing"))
  else if r.path ≠ "" ∧ ¬ validPath r.path then
    .fail (.pathError op r.path .errInvalid)
  else .ok

/-- `ref.string` of `fs.go`: the canonical rooted rendering. -/
def Ref.string (r : Ref) : String :=
  pathJoin ["/", r.owner, r.repo, r.path]

/-- The documented `Ref` invariant (spec §3): a repository needs an owner,
a path needs both. -/
def refInvariant (r : Ref) : Prop :=
  (r.repo ≠ "" → r.owner ≠ "") ∧ (r.path ≠ "" → r.owner ≠ "" ∧ r.repo ≠ "")

instance (r : Ref) : Decidable (refInvariant r) := by
  unfold refInvariant; infer_instance

/-- `handleErr` of `fs.go`: translate a remote error at an operation
boundary. -/
def handleErr (err : Option RemoteErr) (op : String) (path : String) :
    Option FsError :=
  match err with
  | some (.api status) =>
    if status = 404 then some (.pathError op path .errNotExist)
    else if status = 403 ∨ status = 401 then some (.pathError op path .errPermission)
    else some (.raw (.api status))
  | some e => some (.raw e)
  | none => none

/-- `dirEntry` of `fs.go`. -/
structure DirEntry where
  name : String
  isDir : Bool
  size : Int
deriving DecidableEq, Repr

/-- `dir` of `fs.go`: a materialized listing plus the read cursor. -/
structure Dir where
  name : String
  entries : List DirEntry
  offset : Nat
deriving DecidableEq, Repr

/-- `dir.ReadDir` of `fs.go`.  Returns the directory with its advanced
cursor, the entries returned, and whether `io.EOF` was returned. -/
def Dir.ReadDir (d : Dir) (n : Int) : Dir × List DirEntry × Bool :=
  if n ≤ 0 then
    let remaining : Int := (d.entries.length : Int) - (d.offset : Int)
    if remaining = 0 then (d, [], false)
    else
      let entries := (d.entries.drop d.offset).take remaining.toNat
      ({ d with offset := d.entries.length }, entries, false)
  else
    let remaining : Int := (d.entries.length : Int) - (d.offset : Int)
    if remaining = 0 then (d, [], true)
    else
      let count := min n remaining
      let entries := (d.entries.drop d.offset).take count.toNat
      if (d.entries.length : Int) ≤ (d.offset : Int) + count ∧ count < n then
        ({ d with offset := d.offset + count.toNat }, entries, true)
      else ({ d with offset := d.offset + count.toNat }, entries, false)

/-- The two shapes behind `fs.File` here: `file` (name, size, decoded
content) and `dir`. -/
inductive FsFile where
  | file (name : String) (size : Int) (content : String)
  | dir (d : Dir)
deriving DecidableEq, Repr

/-- The single-file shape of a GitHub `GetContents` response; `content`
models `fileContent.GetContent()` (base64 decoding may fail). -/
structure FileContentResp where
  name : String
  size : Int
  content : Except String String

/-- One item of a GitHub directory-listing response. -/
structure ContentItem where
  name : String
  typ : String
  size : Int
deriving DecidableEq, Repr

/-- The remote GitHub client, as the two operations the core consumes:
`Repositories.GetContents` and `Repositories.ListByUser` (the latter as a
function of the requested page, returning names, next page, error). -/
structure Remote where
  getContents : String → String → String →
    Option FileContentResp × Option (List ContentItem) × Option RemoteErr
  listByUser : String → Nat → List String × Nat × Option RemoteErr

/-- Result of `fsys.Open`: a Go `panic`, fuel exhaustion of the modelled
pagination loop, an error, or an open file. -/
inductive OpenResult where
  | panicked
  | fuelOut
  | err (e : FsError)
  | ok (f : FsFile)
deriving DecidableEq, Repr

/-- `fsys` of `fs.go`; the client and context fields are modelled by the
explicit `Remote` argument of the operations. -/
structure Fsys where
  ref : Ref
deriving DecidableEq, Repr

/-- `fsys.getRepoContent` of `fs.go`. -/
def getRepoContent (remote : Remote) (r : Ref) : OpenResult :=
  let (fileContent, dirContent, err) := remote.getContents r.owner r.repo r.path
  match handleErr err "open" r.string with
  | some e => .err e
  | none =>
    match fileContent with
    | some fc =>
      match fc.content with
      | .error e => .err (.simple e)
      | .ok content => .ok (.file fc.name fc.size content)
    | none =>
      match dirContent with
      | some items =>
        .ok (.dir { name := pathBase r.string,
                    entries := items.map fun c =>
                      { name := c.name, isDir := c.typ = "dir", size := c.size },
                    offset := 0 })
      | none => .err (.simple "invalid response: no file or directory returned")

/-- The pagination loop of `fsys.listRepositories`, with explicit fuel. -/
def listReposLoop (remote : Remote) (owner : String) :
    Nat → Nat → List String → Option (Except FsError (List String))
  | 0, _, _ => none
  | fuel + 1, page, acc =>
    let (repos, nextPage, err) := remote.listByUser owner page
    match handleErr err "open" ("/" ++ owner) with
    | some e => some (.error e)
    | none =>
      if nextPage = 0 then some (.ok (acc ++ repos))
      else listReposLoop remote owner fuel nextPage (acc ++ repos)

/-- `fsys.listRepositories` of `fs.go`: accumulate every page, then wrap
each repository name as a directory-typed entry of size 0. -/
def listRepositories (remote : Remote) (fuel : Nat) (owner : String) : OpenResult :=
  match listReposLoop remote owner fuel 0 [] with
  | none => .fuelOut
  | some (.error e) => .err e
  | some (.ok names) =>
    .ok (.dir { name := owner,
                entries := names.map fun n => { name := n, isDir := true, size := 0 },
                offset := 0 })

/-- `fsys.Open` of `fs.go`. -/
def Fsys.Open (remote : Remote) (fuel : Nat) (f : Fsys) (name : String) : OpenResult :=
  if ¬ validPath name then .err (.pathError "open" name .errInvalid)
  else
    let r := f.ref.join name
    match r.validate "open" with
    | .panicked => .panicked
    | .fail e => .err e
    | .ok =>
      if r.repo = "" then listRepositories remote fuel r.owner
      else getRepoContent remote r

/-- `fsys.Sub` of `fs.go`. -/
def Fsys.Sub (f : Fsys) (dir : String) : Except FsError Fsys :=
  if ¬ validPath dir then .error (.pathError "sub" dir .errInvalid)
  else .ok ⟨f.ref.join dir⟩

/-- `New` of `fs.go` restricted to its reference-shaping effect: start
from the zero value and apply the options in order. -/
def New (opts : List (Fsys → Fsys)) : Fsys :=
  opts.foldl (fun f opt => opt f) ⟨⟨"", "", ""⟩⟩

/-- `WithOwner` of `options.go`. -/
def withOwner (owner : String) : Fsys → Fsys := fun f =>
  if owner = "" then f else { f with ref := { f.ref with owner := owner } }

/-- `WithRepository` of `options.go`: sets owner only when nonempty, and
repository only when nonempty — independently. -/
def withRepository (owner repo : String) : Fsys → Fsys := fun f =>
  let f1 := if owner ≠ "" then { f with ref := { f.ref with owner := owner } } else f
  if repo ≠ "" then { f1 with ref := { f1.ref with repo := repo } } else f1

/-- Call `ReadDir n` repeatedly, collecting each batch with its
end-of-directory flag, until the end signal (or fuel runs out). -/
def drainReadDir : Nat → Dir → Int → List (List DirEntry × Bool)
  | 0, _, _ => []
  | fuel + 1, d, n =>
    let (d', es, eof) := d.ReadDir n
    if eof then [(es, true)]
    else (es, false) :: drainReadDir fuel d' n

/-- Spec-side characterization of the pagination walk of
`listRepositories` (spec §4.3): starting from `page`, the successive
result pages of `listByUser`, defined only when every call is error-free
and the chain reaches next-page 0 within the fuel. -/
def pagesVisited (remote : Remote) (owner : String) :
    Nat → Nat → Option (List (List String))
  | 0, _ => none
  | fuel + 1, page =>
    match remote.listByUser owner page with
    | (repos, nextPage, none) =>
      if nextPage = 0 then some [repos]
      else
        match pagesVisited remote owner fuel nextPage with
        | some ps => some (repos :: ps)
        | none => none
    | (_, _, some _) => none

/-- Modelled from the spec (§4.1): the slash-separated segments of a
well-formed relative path name, empty when the name denotes the root. -/
def pathSegs (p : String) : List String :=
  if p = "." then [] else (splitChar p.data).map String.mk

/-- Modelled from the spec (§4.1): a base pinning both owner and
repository path-joins the name onto its path; otherwise the name's
segments are consumed left-to-right — first unfilled slot is owner, then
repository, and the remaining segments are joined into the path. -/
def fillSpec (r : Ref) (p : String) : Ref :=
  if r.owner ≠ "" ∧ r.repo ≠ "" then
    { r with path := pathJoin [r.path, p] }
  else if r.owner = "" then
    match pathSegs p with
    | [] => r
    | [o] => { r with owner := o }
    | o :: rp :: rest => { owner := o, repo := rp, path := pathJoin rest }
  else
    match pathSegs p with
    | [] => r
    | rp :: rest => { r with repo := rp, path := pathJoin rest }

/-- A concrete remote used by the closed witness theorems: one repository
listing page for any owner, and a fixed single-item directory for any
contents query. -/
def testRemote : Remote where
  getContents := fun _ _ _ => (none, some [⟨"a.txt", "file", 5⟩], none)
  listByUser := fun _ _ => (["r1"], 0, none)

/-- A concrete remote with a two-page repository listing, exercising the
pagination loop in witnesses. -/
def pagedRemote : Remote where
  getContents := fun _ _ _ => (none, none, some (.api 404))
  listByUser := fun _ page =>
    if page = 0 then (["r1", "r2"], 2, none)
    else if page = 2 then (["r3"], 0, none)
    else ([], 0, some (.other "bad page"))

/-- A well-formed single path segment: what `owner` and `repo` hold after
normal construction — nonempty, slash-free, and not `"."`/`".."`. -/
def segOk (s : String) : Prop := isPlain s.data = true ∧ '/' ∉ s.data

theorem splitChar_ne_nil (l : List Char) : splitChar l ≠ [] := by
  cases l with
  | nil => simp [splitChar]
  | cons c cs =>
    simp only [splitChar]
    split
    · simp
    · split <;> simp_all

theorem splitChar_cons_slash (cs : List Char) :
    splitChar ('/' :: cs) = [] :: splitChar cs := by
  simp [splitChar]

theorem splitChar_cons_ne (c : Char) (cs : List Char) (h : c ≠ '/') :
    splitChar (c :: cs) =
      (c :: (splitChar cs).headI) :: (splitChar cs).tail := by
  simp only [splitChar, if_neg h]
  rcases hs : splitChar cs with _ | ⟨s, rest⟩
  · exact absurd hs (splitChar_ne_nil cs)
  · simp [List.headI]

theorem splitChar_append_slash (xs ys : List Char) :
    splitChar (xs ++ '/' :: ys) = splitChar xs ++ splitChar ys := by
  induction xs with
  | nil => simp [splitChar_cons_slash, splitChar]
  | cons c cs ih =>
    by_cases hc : c = '/'
    · subst hc
      simp [splitChar_cons_slash, ih]
    · rw [List.cons_append, splitChar_cons_ne c _ hc, splitChar_cons_ne c cs hc, ih]
      rcases hs : splitChar cs with _ | ⟨s, rest⟩
      · exact absurd hs (splitChar_ne_nil cs)
      · simp [List.headI]

theorem splitChar_no_slash (l : List Char) (h : '/' ∉ l) : splitChar l = [l] := by
  induction l with
  | nil => simp [splitChar]
  | cons c cs ih =>
    have hc : c ≠ '/' := fun hc => h (hc ▸ List.mem_cons_self c cs)
    have hcs : '/' ∉ cs := fun hm => h (List.mem_cons_of_mem c hm)
    rw [splitChar_cons_ne c cs hc, ih hcs]
    simp [List.headI]

theorem mem_splitChar_no_slash (l : List Char) (s : List Char)
    (hs : s ∈ splitChar l) : '/' ∉ s := by
  induction l generalizing s with
  | nil =>
    simp [splitChar] at hs
    simp [hs]
  | cons c cs ih =>
    by_cases hc : c = '/'
    · subst hc
      rw [splitChar_cons_slash, List.mem_cons] at hs
      rcases hs with rfl | hs
      · simp
      · exact ih s hs
    · rw [splitChar_cons_ne c cs hc, List.mem_cons] at hs
      rcases h0 : splitChar cs with _ | ⟨s0, rest⟩
      · exact absurd h0 (splitChar_ne_nil cs)
      · rw [h0] at hs
        simp only [List.headI, List.tail_cons] at hs
        rcases hs with rfl | hs
        · intro hm
          rcases List.mem_cons.mp hm with heq | hm
          · exact hc heq.symm
          · exact ih s0 (h0 ▸ List.mem_cons_self s0 rest) hm
        · exact ih s (h0 ▸ List.mem_cons_of_mem s0 hs)

theorem joinSegs_splitChar (l : List Char) : joinSegs (splitChar l) = l := by
  induction l with
  | nil => simp [splitChar, joinSegs]
  | cons c cs ih =>
    by_cases hc : c = '/'
    · subst hc
      rw [splitChar_cons_slash]
      rcases h0 : splitChar cs with _ | ⟨s0, rest⟩
      · exact absurd h0 (splitChar_ne_nil cs)
      · rw [h0] at ih
        simp [joinSegs, ← ih]
    · rw [splitChar_cons_ne c cs hc]
      rcases h0 : splitChar cs with _ | ⟨s0, rest⟩
      · exact absurd h0 (splitChar_ne_nil cs)
      · rw [h0] at ih
        rcases rest with _ | ⟨r, rs⟩
        · simpa [joinSegs, List.headI] using congrArg (c :: ·) ih
        · simpa [joinSegs, List.headI] using congrArg (c :: ·) ih

theorem joinSegs_cons (s : List Char) (rest : List (List Char)) (h : rest ≠ []) :
    joinSegs (s :: rest) = s ++ '/' :: joinSegs rest := by
  rcases rest with _ | ⟨r, rs⟩
  · exact absurd rfl h
  · rfl

theorem splitChar_joinSegs (segs : List (List Char)) (h : segs ≠ [])
    (hns : ∀ s ∈ segs, '/' ∉ s) : splitChar (joinSegs segs) = segs := by
  induction segs with
  | nil => exact absurd rfl h
  | cons s rest ih =>
    rcases rest with _ | ⟨r, rs⟩
    · exact splitChar_no_slash s (hns s (List.mem_cons_self s []))
    · rw [joinSegs_cons s (r :: rs) (by simp), splitChar_append_slash,
        splitChar_no_slash s (hns s (List.mem_cons_self s (r :: rs))),
        ih (by simp) fun t ht => hns t (List.mem_cons_of_mem s ht)]
      rfl

theorem all_plain_head_ne_slash (l : List Char)
    (h : (splitChar l).all isPlain = true) : l.head? ≠ some '/' := by
  intro hh
  rcases l with _ | ⟨c, cs⟩
  · simp at hh
  · simp only [List.head?_cons, Option.some.injEq] at hh
    subst hh
    rw [splitChar_cons_slash] at h
    simp [isPlain] at h

theorem all_plain_ne_nil (l : List Char)
    (h : (splitChar l).all isPlain = true) : l ≠ [] := by
  intro he
  subst he
  simp [splitChar, isPlain] at h

theorem all_plain_getLast_ne_slash (l : List Char)
    (h : (splitChar l).all isPlain = true) : l.getLast? ≠ some '/' := by
  intro hl
  rcases List.getLast?_eq_some_iff.mp hl with ⟨ys, rfl⟩
  rw [splitChar_append_slash] at h
  simp [splitChar, isPlain] at h

theorem cleanLoopAux_skip (rooted : Bool) (stack : List (List Char))
    (segs : List (List Char))
    (h : ∀ s ∈ segs, s = [] ∨ s = ['.'] ∨ isPlain s = true) :
    cleanLoopAux rooted stack segs = stack.reverse ++ segs.filter isPlain := by
  induction segs generalizing stack with
  | nil => simp [cleanLoopAux]
  | cons s rest ih =>
    have hs := h s (List.mem_cons_self s rest)
    have hrest : ∀ t ∈ rest, t = [] ∨ t = ['.'] ∨ isPlain t = true :=
      fun t ht => h t (List.mem_cons_of_mem s ht)
    rcases hs with rfl | rfl | hp
    · rw [show cleanLoopAux rooted stack ([] :: rest) = cleanLoopAux rooted stack rest
        from by simp [cleanLoopAux]]
      rw [ih stack hrest]
      simp [isPlain]
    · rw [show cleanLoopAux rooted stack (['.'] :: rest) = cleanLoopAux rooted stack rest
        from by simp [cleanLoopAux]]
      rw [ih stack hrest]
      simp [isPlain]
    · have h1 : s ≠ [] := by
        intro he; subst he; simp [isPlain] at hp
      have h2 : s ≠ ['.'] := by
        intro he; subst he; simp [isPlain] at hp
      have h3 : s ≠ ['.', '.'] := by
        intro he; subst he; simp [isPlain] at hp
      rw [show cleanLoopAux rooted stack (s :: rest) = cleanLoopAux rooted (s :: stack) rest
        from by
          simp only [cleanLoopAux]
          rw [if_neg (by simp [h1, h2]), if_neg h3]]
      rw [ih (s :: stack) hrest]
      simp [hp]

theorem cleanL_plain (l : List Char)
    (h : (splitChar l).all isPlain = true) : cleanL l = l := by
  have hne := all_plain_ne_nil l h
  have hhead := all_plain_head_ne_slash l h
  have hfilter : (splitChar l).filter isPlain = splitChar l :=
    List.filter_eq_self.mpr (by simpa using List.all_eq_true.mp h)
  have hroot : decide (l.head? = some '/') = false := by
    simpa using hhead
  rw [cleanL, if_neg hne]
  simp only [hroot, Bool.false_eq_true, if_false]
  rw [cleanLoopAux_skip false [] (splitChar l)
      (fun s hs => Or.inr (Or.inr (List.all_eq_true.mp h s hs)))]
  simp only [List.reverse_nil, List.nil_append, hfilter, joinSegs_splitChar]
  rw [if_neg hne]

theorem dropWhile_ne_head {l : List Char} (c : Char) (hl : l.head? ≠ some c) :
    l.dropWhile (· = c) = l := by
  rcases l with _ | ⟨x, xs⟩
  · rfl
  · have : x ≠ c := fun he => hl (by simp [he])
    simp [List.dropWhile_cons, this]

theorem trimSlashesL_plain (l : List Char)
    (h : (splitChar l).all isPlain = true) : trimSlashesL l = l := by
  have hhead := all_plain_head_ne_slash l h
  have hlast := all_plain_getLast_ne_slash l h
  rw [trimSlashesL, dropWhile_ne_head '/' hhead,
    dropWhile_ne_head '/' (by simpa [List.head?_reverse] using hlast)]
  simp

theorem joinBuf_shift (segs : List (List Char)) :
    ∀ buf buf', buf' ≠ [] →
      joinBuf (buf ++ buf') segs = buf ++ joinBuf buf' segs := by
  induction segs with
  | nil => intro buf buf' _; rfl
  | cons e rest ih =>
    intro buf buf' hne
    rw [show joinBuf (buf ++ buf') (e :: rest)
          = joinBuf ((buf ++ buf') ++ '/' :: e) rest from by
        simp only [joinBuf]
        rw [if_pos (Or.inl (by simp [hne])), if_pos (by simp [hne])]]
    rw [show joinBuf buf' (e :: rest) = joinBuf (buf' ++ '/' :: e) rest from by
        simp only [joinBuf]
        rw [if_pos (Or.inl hne), if_pos hne]]
    rw [List.append_assoc]
    exact ih buf (buf' ++ '/' :: e) (by simp [hne])

theorem joinBuf_eq_joinSegs (rest : List (List Char)) :
    ∀ s, s ≠ [] → joinBuf s rest = joinSegs (s :: rest) := by
  induction rest with
  | nil => intro s _; rfl
  | cons e rest' ih =>
    intro s hs
    rw [show joinBuf s (e :: rest') = joinBuf (s ++ '/' :: e) rest' from by
        simp only [joinBuf]
        rw [if_pos (Or.inl hs), if_pos hs]]
    rw [ih (s ++ '/' :: e) (by simp [hs])]
    rw [joinSegs_cons s (e :: rest') (by simp)]
    rcases rest' with _ | ⟨r, rs⟩
    · rfl
    · rw [joinSegs_cons (s ++ '/' :: e) (r :: rs) (by simp),
        joinSegs_cons e (r :: rs) (by simp)]
      simp

theorem joinBuf_nil_cons (s : List Char) (rest : List (List Char)) (hs : s ≠ []) :
    joinBuf [] (s :: rest) = joinSegs (s :: rest) := by
  rw [show joinBuf [] (s :: rest) = joinBuf s rest from by
      simp only [joinBuf]
      rw [if_pos (Or.inr hs), if_neg (by simp)]
      simp]
  exact joinBuf_eq_joinSegs rest s hs

theorem pathJoinL_plain (segs : List (List Char)) (hne : segs ≠ [])
    (hp : ∀ s ∈ segs, isPlain s = true) (hns : ∀ s ∈ segs, '/' ∉ s) :
    pathJoinL segs = joinSegs segs := by
  rcases segs with _ | ⟨s, rest⟩
  · exact absurd rfl hne
  · have hs : s ≠ [] := by
      have := hp s (List.mem_cons_self s rest)
      intro he; subst he; simp [isPlain] at this
    rw [pathJoinL, if_neg (by simp [hs])]
    rw [joinBuf_nil_cons s rest hs]
    exact cleanL_plain _ (by
      rw [splitChar_joinSegs (s :: rest) (by simp) hns]
      exact List.all_eq_true.mpr hp)

theorem pathJoinL_nil_left (x : List Char) (hx : x ≠ []) :
    pathJoinL [[], x] = cleanL x := by
  rw [pathJoinL, if_neg (by simp [hx])]
  congr 1
  show joinBuf [] [[], x] = x
  rw [show joinBuf [] [[], x] = joinBuf [] [x] from by
      simp only [joinBuf]
      rw [if_neg (by simp)]]
  rw [show joinBuf [] [x] = joinBuf x [] from by
      simp only [joinBuf]
      rw [if_pos (Or.inr hx), if_neg (by simp)]
      simp]
  rfl

theorem validPath_all_plain (p : String) (hv : validPath p = true) (hp : p ≠ ".") :
    (splitChar p.data).all isPlain = true := by
  simp only [validPath, Bool.or_eq_true, decide_eq_true_eq] at hv
  rcases hv with h | h
  · exact absurd h hp
  · exact h

theorem validPath_ne_empty (p : String) (hv : validPath p = true) : p ≠ "" := by
  intro he
  subst he
  simp [validPath, splitChar, isPlain] at hv

theorem String.mk_data (s : String) : String.mk s.data = s := rfl

theorem mk_ne_empty (l : List Char) (h : l ≠ []) : String.mk l ≠ "" := by
  intro he
  exact h (congrArg String.data he)

theorem map_data_map_mk (xs : List (List Char)) :
    (xs.map String.mk).map String.data = xs := by
  induction xs with
  | nil => rfl
  | cons x t ih => simp [ih]

theorem joinSegs_ne_nil (segs : List (List Char)) (h : segs ≠ [])
    (hp : ∀ s ∈ segs, s ≠ []) : joinSegs segs ≠ [] := by
  rcases segs with _ | ⟨s, rest⟩
  · exact absurd rfl h
  · rcases rest with _ | ⟨r, rs⟩
    · exact hp s (List.mem_cons_self s [])
    · simp [joinSegs]

theorem isPlain_ne_nil (s : List Char) (h : isPlain s = true) : s ≠ [] := by
  intro he
  subst he
  simp [isPlain] at h

theorem pathJoin_strings_plain (segs : List (List Char)) (hne : segs ≠ [])
    (hp : ∀ s ∈ segs, isPlain s = true) (hns : ∀ s ∈ segs, '/' ∉ s) :
    pathJoin (segs.map String.mk) = String.mk (joinSegs segs) := by
  rw [pathJoin, map_data_map_mk, pathJoinL_plain segs hne hp hns]

theorem pathJoin_empty_left (segs : List (List Char)) (hne : segs ≠ [])
    (hp : ∀ s ∈ segs, isPlain s = true) (hns : ∀ s ∈ segs, '/' ∉ s) :
    pathJoin ["", pathJoin (segs.map String.mk)] = pathJoin (segs.map String.mk) := by
  rw [pathJoin_strings_plain segs hne hp hns]
  have hjne : joinSegs segs ≠ [] := joinSegs_ne_nil segs hne fun s hs => isPlain_ne_nil s (hp s hs)
  have hclean : cleanL (joinSegs segs) = joinSegs segs :=
    cleanL_plain _ (by
      rw [splitChar_joinSegs segs hne hns]
      exact List.all_eq_true.mpr hp)
  show String.mk (pathJoinL [[], joinSegs segs]) = String.mk (joinSegs segs)
  rw [pathJoinL_nil_left _ hjne, hclean]

theorem segments_of_valid (p : String) (hv : validPath p = true) (hp : p ≠ ".") :
    splitSlash (trimSlash (pathClean p)) = (splitChar p.data).map String.mk := by
  have h := validPath_all_plain p hv hp
  show (splitChar (trimSlashesL (cleanL p.data))).map String.mk = _
  rw [cleanL_plain p.data h, trimSlashesL_plain p.data h]

theorem inv_owner_empty (r : Ref) (hInv : refInvariant r) (h : r.owner = "") :
    r.repo = "" ∧ r.path = "" := by
  constructor
  · by_contra hr
    exact hInv.1 hr h
  · by_contra hp
    exact (hInv.2 hp).1 h

theorem inv_repo_empty (r : Ref) (hInv : refInvariant r) (h : r.repo = "") :
    r.path = "" := by
  by_contra hp
  exact (hInv.2 hp).2 h

theorem pathJoin_nil : pathJoin [] = "" := rfl

theorem join_eq_fillSpec (r : Ref) (p : String) (hInv : refInvariant r)
    (hv : validPath p = true) : r.join p = fillSpec r p := by
  obtain ⟨o, rp, pa⟩ := r
  by_cases howner : o = ""
  · subst howner
    have hrepo : rp = "" := (inv_owner_empty ⟨"", rp, pa⟩ hInv rfl).1
    have hpath : pa = "" := (inv_owner_empty ⟨"", rp, pa⟩ hInv rfl).2
    subst hrepo
    subst hpath
    by_cases hdot : p = "."
    · subst hdot
      decide
    · have hne' : p ≠ "" := validPath_ne_empty p hv
      have hseg := segments_of_valid p hv hdot
      have hplain := validPath_all_plain p hv hdot
      rcases h0 : splitChar p.data with _ | ⟨s1, rest⟩
      · exact absurd h0 (splitChar_ne_nil p.data)
      · rw [h0] at hseg hplain
        have hplain' := List.all_eq_true.mp hplain
        have hnoslash : ∀ s ∈ s1 :: rest, '/' ∉ s := fun s hs =>
          mem_splitChar_no_slash p.data s (h0 ▸ hs)
        rcases rest with _ | ⟨s2, rest2⟩
        · simp [Ref.join, fillSpec, pathSegs, hdot, hne', hseg, h0]
        · rcases rest2 with _ | ⟨d, ds⟩
          · simp [Ref.join, fillSpec, pathSegs, hdot, hne', hseg, h0, pathJoin_nil]
          · have hrw : pathJoin ["", pathJoin ((d :: ds).map String.mk)]
                = pathJoin ((d :: ds).map String.mk) :=
              pathJoin_empty_left (d :: ds) (by simp)
                (fun s hs => hplain' s (by simp [List.mem_cons] at hs ⊢; tauto))
                (fun s hs => hnoslash s (by simp [List.mem_cons] at hs ⊢; tauto))
            simp [Ref.join, fillSpec, pathSegs, hdot, hne', hseg, h0]
            simpa using hrw
  · by_cases hrepo : rp = ""
    · subst hrepo
      have hpath : pa = "" := inv_repo_empty ⟨o, "", pa⟩ hInv rfl
      subst hpath
      by_cases hdot : p = "."
      · subst hdot
        simp [Ref.join, fillSpec, pathSegs, howner]
      · have hne' : p ≠ "" := validPath_ne_empty p hv
        have hseg := segments_of_valid p hv hdot
        have hplain := validPath_all_plain p hv hdot
        rcases h0 : splitChar p.data with _ | ⟨s1, rest⟩
        · exact absurd h0 (splitChar_ne_nil p.data)
        · rw [h0] at hseg hplain
          have hplain' := List.all_eq_true.mp hplain
          have hnoslash : ∀ s ∈ s1 :: rest, '/' ∉ s := fun s hs =>
            mem_splitChar_no_slash p.data s (h0 ▸ hs)
          rcases rest with _ | ⟨d, ds⟩
          · simp [Ref.join, fillSpec, pathSegs, howner, hdot, hne', hseg, h0,
              pathJoin_nil]
          · have hrw : pathJoin ["", pathJoin ((d :: ds).map String.mk)]
                = pathJoin ((d :: ds).map String.mk) :=
              pathJoin_empty_left (d :: ds) (by simp)
                (fun s hs => hplain' s (by simp [List.mem_cons] at hs ⊢; tauto))
                (fun s hs => hnoslash s (by simp [List.mem_cons] at hs ⊢; tauto))
            simp [Ref.join, fillSpec, pathSegs, howner, hdot, hne', hseg, h0]
            simpa using hrw
    · simp [Ref.join, fillSpec, howner, hrepo]

theorem join_preserves_inv (r : Ref) (p : String) (hInv : refInvariant r)
    (hv : validPath p = true) : refInvariant (r.join p) := by
  rw [join_eq_fillSpec r p hInv hv]
  obtain ⟨o, rp, pa⟩ := r
  by_cases hBoth : o ≠ "" ∧ rp ≠ ""
  · simp only [fillSpec, if_pos hBoth]
    exact ⟨fun _ => hBoth.1, fun _ => ⟨hBoth.1, hBoth.2⟩⟩
  · by_cases hdot : p = "."
    · subst hdot
      have hfs : fillSpec ⟨o, rp, pa⟩ "." = ⟨o, rp, pa⟩ := by
        simp [fillSpec, pathSegs, hBoth]
      rw [hfs]
      exact hInv
    · have hseg := segments_of_valid p hv hdot
      have hplain := validPath_all_plain p hv hdot
      rcases h0 : splitChar p.data with _ | ⟨s1, rest⟩
      · exact absurd h0 (splitChar_ne_nil p.data)
      · rw [h0] at hplain
        have hplain' := List.all_eq_true.mp hplain
        have hs1ne : String.mk s1 ≠ "" :=
          mk_ne_empty s1 (isPlain_ne_nil s1 (hplain' s1 (by simp)))
        by_cases howner : o = ""
        · subst howner
          rcases rest with _ | ⟨s2, rest2⟩
          · simp [fillSpec, pathSegs, hdot, h0, refInvariant, hs1ne,
              (inv_owner_empty ⟨"", rp, pa⟩ hInv rfl).1,
              (inv_owner_empty ⟨"", rp, pa⟩ hInv rfl).2]
          · have hs2ne : String.mk s2 ≠ "" :=
              mk_ne_empty s2 (isPlain_ne_nil s2 (hplain' s2 (by simp)))
            simp only [fillSpec, pathSegs, if_neg hBoth, if_neg hdot, h0, if_pos rfl,
              List.map_cons, refInvariant]
            exact ⟨fun _ => hs1ne, fun _ => ⟨hs1ne, hs2ne⟩⟩
        · have hrepo : rp = "" := by
            rcases not_and_or.mp hBoth with h | h
            · exact absurd (by simpa using h) howner
            · simpa using h
          subst hrepo
          rcases rest with _ | ⟨d, ds⟩
          · simp only [fillSpec, pathSegs, if_neg hBoth, if_neg hdot, h0,
              if_neg howner, List.map_cons, refInvariant, pathJoin_nil]
            exact ⟨fun _ => howner, fun hp => absurd rfl hp⟩
          · simp only [fillSpec, pathSegs, if_neg hBoth, if_neg hdot, h0,
              if_neg howner, List.map_cons, refInvariant]
            exact ⟨fun _ => howner, fun _ => ⟨howner, hs1ne⟩⟩

theorem takeWhile_append_stop (p : Char → Bool) (xs ys : List Char) :
    (xs ++ ys).takeWhile p =
      if xs.takeWhile p = xs then xs ++ ys.takeWhile p else xs.takeWhile p := by
  induction xs with
  | nil => simp
  | cons x xt ih =>
    by_cases hx : p x
    · simp only [List.cons_append, List.takeWhile_cons, hx, if_true, ih]
      by_cases h2 : xt.takeWhile p = xt
      · simp [h2]
      · simp only [h2, if_false]
        rw [if_neg (by simpa using h2)]
    · simp [List.cons_append, List.takeWhile_cons, hx]

theorem takeWhile_of_no_slash (l : List Char) (h : '/' ∉ l) :
    l.takeWhile (· ≠ '/') = l := by
  induction l with
  | nil => rfl
  | cons c cs ih =>
    have hc : c ≠ '/' := fun he => h (he ▸ List.mem_cons_self c cs)
    have hcs : '/' ∉ cs := fun hm => h (List.mem_cons_of_mem c hm)
    rw [List.takeWhile_cons, if_pos (by simpa using hc), ih hcs]

theorem lastComp_joinSegs (ss : List (List Char)) (t : List Char) (ht : t ≠ [])
    (hns : '/' ∉ t) :
    ((joinSegs (ss ++ [t])).reverse.takeWhile (· ≠ '/')).reverse = t := by
  induction ss with
  | nil =>
    show ((joinSegs [t]).reverse.takeWhile (· ≠ '/')).reverse = t
    have : joinSegs [t] = t := rfl
    rw [this, takeWhile_of_no_slash t.reverse (by simpa using fun h => hns h),
      List.reverse_reverse]
  | cons s ss ih =>
    rw [List.cons_append, joinSegs_cons s (ss ++ [t]) (by simp)]
    rw [List.reverse_append, List.reverse_cons, List.append_assoc]
    rw [show (['/'] ++ s.reverse : List Char) = '/' :: s.reverse from rfl]
    rw [takeWhile_append_stop]
    by_cases hc : ((joinSegs (ss ++ [t])).reverse.takeWhile (· ≠ '/'))
        = (joinSegs (ss ++ [t])).reverse
    · rw [if_pos hc]
      rw [show (('/' :: s.reverse : List Char).takeWhile (· ≠ '/')) = [] from by
        simp [List.takeWhile_cons]]
      rw [List.append_nil]
      rw [← hc, ih]
    · rw [if_neg hc]
      exact ih

theorem joinSegs_concat_reverse (ss : List (List Char)) (t : List Char) :
    ∃ rest, (joinSegs (ss ++ [t])).reverse = t.reverse ++ rest := by
  induction ss with
  | nil => exact ⟨[], by simp [joinSegs]⟩
  | cons s ss ih =>
    obtain ⟨rest, hrest⟩ := ih
    refine ⟨rest ++ '/' :: s.reverse, ?_⟩
    rw [List.cons_append, joinSegs_cons s (ss ++ [t]) (by simp)]
    rw [List.reverse_append, List.reverse_cons, List.append_assoc, hrest,
      List.append_assoc]
    rfl

theorem pathBaseL_joinSegs (ss : List (List Char)) (t : List Char) (ht : t ≠ [])
    (hns : '/' ∉ t) : pathBaseL (joinSegs (ss ++ [t])) = t := by
  have hjne : joinSegs (ss ++ [t]) ≠ [] := by
    rcases ss with _ | ⟨s, ss'⟩
    · simpa [joinSegs] using ht
    · rw [List.cons_append, joinSegs_cons _ _ (by simp)]
      simp
  obtain ⟨rest, hrev⟩ := joinSegs_concat_reverse ss t
  have hdrop : (joinSegs (ss ++ [t])).reverse.dropWhile (· = '/')
      = (joinSegs (ss ++ [t])).reverse := by
    rcases hrt : t.reverse with _ | ⟨c, cs⟩
    · exact absurd (by simpa using hrt) ht
    · have hc : c ≠ '/' := by
        intro he
        subst he
        exact hns (by
          have : '/' ∈ t.reverse := by rw [hrt]; exact List.mem_cons_self _ _
          simpa using this)
      rw [hrev, hrt, List.cons_append]
      simp [List.dropWhile_cons, hc]
  rw [pathBaseL, if_neg hjne]
  simp only [hdrop, List.reverse_reverse]
  rw [lastComp_joinSegs ss t ht hns, if_neg ht]

theorem joinBuf_cons_ne (buf e : List Char) (rest : List (List Char)) (h : buf ≠ []) :
    joinBuf buf (e :: rest) = joinBuf (buf ++ '/' :: e) rest := by
  simp only [joinBuf]
  rw [if_pos (Or.inl h), if_pos h]

theorem joinBuf_slash4 (o rp pa : List Char) (ho : o ≠ []) (hr : rp ≠ []) :
    joinBuf [] [['/'], o, rp, pa] = '/' :: '/' :: (o ++ '/' :: (rp ++ '/' :: pa)) := by
  simp [joinBuf, ho, hr]

theorem filter_isPlain_splitChar (pa : String) (hpa : pa = "" ∨ validPath pa = true) :
    (splitChar pa.data).filter isPlain
      = if pa = "" ∨ pa = "." then [] else splitChar pa.data := by
  by_cases h0 : pa = "" ∨ pa = "."
  · rw [if_pos h0]
    rcases h0 with rfl | rfl
    · decide
    · decide
  · rw [if_neg h0]
    push_neg at h0
    have hv : validPath pa = true := by
      rcases hpa with h | h
      · exact absurd h h0.1
      · exact h
    exact List.filter_eq_self.mpr (List.all_eq_true.mp (validPath_all_plain pa hv h0.2))

theorem splitChar_side (pa : String) (hpa : pa = "" ∨ validPath pa = true) :
    ∀ s ∈ splitChar pa.data, s = [] ∨ s = ['.'] ∨ isPlain s = true := by
  intro s hs
  by_cases h0 : pa = "" ∨ pa = "."
  · rcases h0 with rfl | rfl
    · simp [splitChar] at hs
      simp [hs]
    · simp [splitChar] at hs
      simp [hs]
  · push_neg at h0
    have hv : validPath pa = true := by
      rcases hpa with h | h
      · exact absurd h h0.1
      · exact h
    exact Or.inr (Or.inr (List.all_eq_true.mp (validPath_all_plain pa hv h0.2) s hs))

theorem pathBase_string (o rp pa : String) (ho : segOk o) (hr : segOk rp)
    (hpa : pa = "" ∨ validPath pa = true) :
    pathBase (Ref.string ⟨o, rp, pa⟩) = if pa = "" ∨ pa = "." then rp else pathBase pa := by
  have hod : o.data ≠ [] := isPlain_ne_nil o.data ho.1
  have hrd : rp.data ≠ [] := isPlain_ne_nil rp.data hr.1
  have hstr : (Ref.string ⟨o, rp, pa⟩).data
      = cleanL ('/' :: '/' :: (o.data ++ '/' :: (rp.data ++ '/' :: pa.data))) := by
    show pathJoinL [['/'], o.data, rp.data, pa.data] = _
    rw [pathJoinL, if_neg (by simp), joinBuf_slash4 o.data rp.data pa.data hod hrd]
  have hsplit : splitChar ('/' :: '/' :: (o.data ++ '/' :: (rp.data ++ '/' :: pa.data)))
      = [] :: [] :: o.data :: rp.data :: splitChar pa.data := by
    rw [splitChar_cons_slash, splitChar_cons_slash, splitChar_append_slash,
      splitChar_no_slash o.data ho.2, splitChar_append_slash,
      splitChar_no_slash rp.data hr.2]
    rfl
  have hloop : cleanLoopAux true []
      ([] :: [] :: o.data :: rp.data :: splitChar pa.data)
      = o.data :: rp.data :: (splitChar pa.data).filter isPlain := by
    rw [cleanLoopAux_skip true [] _ (by
      intro s hs
      rcases List.mem_cons.mp hs with rfl | hs
      · exact Or.inl rfl
      · rcases List.mem_cons.mp hs with rfl | hs
        · exact Or.inl rfl
        · rcases List.mem_cons.mp hs with rfl | hs
          · exact Or.inr (Or.inr ho.1)
          · rcases List.mem_cons.mp hs with rfl | hs
            · exact Or.inr (Or.inr hr.1)
            · exact splitChar_side pa hpa s hs)]
    rw [List.filter_cons, List.filter_cons, List.filter_cons, List.filter_cons,
      if_neg (by decide), if_neg (by decide), if_pos ho.1, if_pos hr.1]
    rfl
  have hcleanL : cleanL ('/' :: '/' :: (o.data ++ '/' :: (rp.data ++ '/' :: pa.data)))
      = '/' :: joinSegs (o.data :: rp.data :: (splitChar pa.data).filter isPlain) := by
    rw [cleanL, if_neg (by simp)]
    rw [show decide
        ((('/' :: '/' :: (o.data ++ '/' :: (rp.data ++ '/' :: pa.data)))).head?
          = some '/') = true from rfl]
    rw [if_pos rfl, hsplit, hloop]
  rw [pathBase, hstr, hcleanL, filter_isPlain_splitChar pa hpa]
  by_cases h0 : pa = "" ∨ pa = "."
  · rw [if_pos h0, if_pos h0]
    have : ('/' :: joinSegs [o.data, rp.data])
        = joinSegs (([] :: [o.data]) ++ [rp.data]) := by
      rw [show ([] :: [o.data]) ++ [rp.data] = [] :: [o.data, rp.data] from rfl,
        joinSegs_cons [] [o.data, rp.data] (by simp)]
      simp
    rw [this, pathBaseL_joinSegs ([] :: [o.data]) rp.data hrd hr.2]
  · rw [if_neg h0, if_neg h0]
    push_neg at h0
    have hv : validPath pa = true := by
      rcases hpa with h | h
      · exact absurd h h0.1
      · exact h
    rcases List.eq_nil_or_concat (splitChar pa.data) with hnil | ⟨ss, t, hst⟩
    · exact absurd hnil (splitChar_ne_nil pa.data)
    · rw [List.concat_eq_append] at hst
      have hplain := validPath_all_plain pa hv h0.2
      have htp : isPlain t = true :=
        List.all_eq_true.mp hplain t (by rw [hst]; simp)
      have htne : t ≠ [] := isPlain_ne_nil t htp
      have htns : '/' ∉ t :=
        mem_splitChar_no_slash pa.data t (by rw [hst]; simp)
      have hLHS : ('/' :: joinSegs (o.data :: rp.data :: splitChar pa.data))
          = joinSegs (([] :: o.data :: rp.data :: ss) ++ [t]) := by
        rw [hst, show ([] :: o.data :: rp.data :: ss) ++ [t]
            = [] :: o.data :: rp.data :: (ss ++ [t]) from by simp,
          joinSegs_cons [] (o.data :: rp.data :: (ss ++ [t])) (by simp)]
        simp
      rw [hLHS, pathBaseL_joinSegs ([] :: o.data :: rp.data :: ss) t htne htns]
      have hpa_data : pa.data = joinSegs (ss ++ [t]) := by
        rw [← hst, joinSegs_splitChar]
      rw [pathBase, hpa_data, pathBaseL_joinSegs ss t htne htns]

theorem readDir_nonpos (d : Dir) (n : Int) (hn : n ≤ 0)
    (h : d.offset ≤ d.entries.length) :
    d.ReadDir n = ({ d with offset := d.entries.length },
      d.entries.drop d.offset, false) := by
  unfold Dir.ReadDir
  rw [if_pos hn]
  by_cases h0 : ((d.entries.length : Int) - (d.offset : Int)) = 0
  · have hoff : d.offset = d.entries.length := by omega
    rw [if_pos h0]
    have he : ({ d with offset := d.entries.length } : Dir) = d := by
      rw [← hoff]
    rw [he, hoff, List.drop_length]
  · rw [if_neg h0]
    have htn : ((d.entries.length : Int) - (d.offset : Int)).toNat
        = d.entries.length - d.offset := by omega
    rw [htn]
    have : (d.entries.drop d.offset).take (d.entries.length - d.offset)
        = d.entries.drop d.offset := by
      apply List.take_of_length_le
      simp
    rw [this]

theorem readDir_pos_end (d : Dir) (n : Int) (hn : 0 < n)
    (h : d.offset = d.entries.length) :
    d.ReadDir n = (d, [], true) := by
  unfold Dir.ReadDir
  rw [if_neg (by omega), if_pos (by omega)]

theorem readDir_pos_mid (d : Dir) (n : Int) (hn : 0 < n)
    (h : d.offset < d.entries.length) :
    d.ReadDir n = ({ d with offset := d.offset + min n.toNat (d.entries.length - d.offset) },
      (d.entries.drop d.offset).take (min n.toNat (d.entries.length - d.offset)),
      decide (d.entries.length ≤ d.offset + min n.toNat (d.entries.length - d.offset)
        ∧ min n.toNat (d.entries.length - d.offset) < n.toNat)) := by
  unfold Dir.ReadDir
  rw [if_neg (by omega), if_neg (by omega)]
  have hcnt : (min n ((d.entries.length : Int) - (d.offset : Int))).toNat
      = min n.toNat (d.entries.length - d.offset) := by omega
  by_cases hc : ((d.entries.length : Int)
      ≤ (d.offset : Int) + min n ((d.entries.length : Int) - (d.offset : Int))
      ∧ min n ((d.entries.length : Int) - (d.offset : Int)) < n)
  · rw [if_pos hc, hcnt]
    have hd : decide (d.entries.length ≤ d.offset + min n.toNat (d.entries.length - d.offset)
        ∧ min n.toNat (d.entries.length - d.offset) < n.toNat) = true :=
      decide_eq_true (by omega)
    rw [hd]
  · rw [if_neg hc, hcnt]
    have hd : decide (d.entries.length ≤ d.offset + min n.toNat (d.entries.length - d.offset)
        ∧ min n.toNat (d.entries.length - d.offset) < n.toNat) = false :=
      decide_eq_false (by omega)
    rw [hd]

theorem drain_spec (fuel : Nat) : ∀ d : Dir, d.offset ≤ d.entries.length →
    d.entries.length - d.offset < fuel →
    ((List.map Prod.fst (drainReadDir fuel d 3)).flatten = d.entries.drop d.offset)
    ∧ (∀ c ∈ drainReadDir fuel d 3, c.1.length ≤ 3)
    ∧ drainReadDir fuel d 3 ≠ []
    ∧ (∀ c ∈ (drainReadDir fuel d 3).dropLast, c.2 = false)
    ∧ (drainReadDir fuel d 3).getLast?.map Prod.snd = some true := by
  induction fuel with
  | zero =>
    intro d hoff hfuel
    omega
  | succ f ih =>
    intro d hoff hfuel
    by_cases hend : d.offset = d.entries.length
    · have h1 := readDir_pos_end d 3 (by norm_num) hend
      have hdr : drainReadDir (f + 1) d 3 = [([], true)] := by
        simp [drainReadDir, h1]
      rw [hdr]
      refine ⟨?_, ?_, ?_, ?_, ?_⟩
      · simp [hend, List.drop_length]
      · intro c hc
        simp at hc
        simp [hc]
      · simp
      · intro c hc
        simp at hc
      · simp
    · have hlt : d.offset < d.entries.length := lt_of_le_of_ne hoff hend
      have h1 := readDir_pos_mid d 3 (by norm_num) hlt
      have h3 : ((3 : Int)).toNat = 3 := rfl
      rw [h3] at h1
      by_cases hex : d.entries.length ≤ d.offset + min 3 (d.entries.length - d.offset)
          ∧ min 3 (d.entries.length - d.offset) < 3
      · have hdec : decide (d.entries.length ≤ d.offset
            + min 3 (d.entries.length - d.offset)
            ∧ min 3 (d.entries.length - d.offset) < 3) = true :=
          decide_eq_true hex
        rw [hdec] at h1
        have hdr : drainReadDir (f + 1) d 3
            = [((d.entries.drop d.offset).take (min 3 (d.entries.length - d.offset)),
                true)] := by
          simp [drainReadDir, h1]
        rw [hdr]
        have htake : (d.entries.drop d.offset).take (min 3 (d.entries.length - d.offset))
            = d.entries.drop d.offset := by
          apply List.take_of_length_le
          simp
          omega
        refine ⟨?_, ?_, ?_, ?_, ?_⟩
        · simp [htake]
        · intro c hc
          simp at hc
          simp [hc]
        · simp
        · intro c hc
          simp at hc
        · simp
      · have hdec : decide (d.entries.length ≤ d.offset
            + min 3 (d.entries.length - d.offset)
            ∧ min 3 (d.entries.length - d.offset) < 3) = false :=
          decide_eq_false hex
        rw [hdec] at h1
        have hcnt3 : min 3 (d.entries.length - d.offset) = 3 := by omega
        rw [hcnt3] at h1
        have hdr : drainReadDir (f + 1) d 3
            = ((d.entries.drop d.offset).take 3, false)
              :: drainReadDir f { d with offset := d.offset + 3 } 3 := by
          simp [drainReadDir, h1]
        obtain ⟨ihf, ihlen, ihne, ihdl, ihlast⟩ :=
          ih { d with offset := d.offset + 3 } (by simp; omega) (by simp; omega)
        rw [hdr]
        refine ⟨?_, ?_, ?_, ?_, ?_⟩
        · simp only [List.map_cons, List.flatten_cons, ihf]
          show (d.entries.drop d.offset).take 3
              ++ d.entries.drop (d.offset + 3) = d.entries.drop d.offset
          rw [← List.drop_drop]
          exact List.take_append_drop 3 _
        · intro c hc
          rcases List.mem_cons.mp hc with rfl | hc
          · simp
          · exact ihlen c hc
        · simp
        · intro c hc
          rcases h0 : drainReadDir f { d with offset := d.offset + 3 } 3 with _ | ⟨x, xs⟩
          · exact absurd h0 ihne
          · rw [h0] at hc
            simp only [List.dropLast_cons₂] at hc
            rcases List.mem_cons.mp hc with rfl | hc
            · rfl
            · exact ihdl c (by rw [h0]; exact hc)
        · rcases h0 : drainReadDir f { d with offset := d.offset + 3 } 3 with _ | ⟨x, xs⟩
          · exact absurd h0 ihne
          · rw [h0] at ihlast
            rw [List.getLast?_cons_cons]
            exact ihlast

theorem listReposLoop_pages (remote : Remote) (owner : String) :
    ∀ (fuel page : Nat) (acc : List String) (ps : List (List String)),
      pagesVisited remote owner fuel page = some ps →
      listReposLoop remote owner fuel page acc = some (.ok (acc ++ ps.flatten)) := by
  intro fuel
  induction fuel with
  | zero =>
    intro page acc ps h
    simp [pagesVisited] at h
  | succ f ih =>
    intro page acc ps h
    rcases hlb : remote.listByUser owner page with ⟨repos, rest⟩
    rcases rest with ⟨nextPage, err⟩
    rcases err with _ | e
    · rw [pagesVisited, hlb] at h
      dsimp only at h
      rw [listReposLoop, hlb]
      dsimp only
      rw [show handleErr none "open" ("/" ++ owner) = none from rfl]
      dsimp only
      by_cases hnp : nextPage = 0
      · rw [if_pos hnp] at h ⊢
        have hps : ps = [repos] := by simpa using h.symm
        subst hps
        simp
      · rw [if_neg hnp] at h ⊢
        rcases hrec : pagesVisited remote owner f nextPage with _ | ps'
        · rw [hrec] at h
          simp at h
        · rw [hrec] at h
          simp at h
          have hps : ps = repos :: ps' := h.symm
          subst hps
          rw [ih nextPage (acc ++ repos) ps' hrec]
          simp
    · rw [pagesVisited, hlb] at h
      simp at h

theorem validate_ne_panicked (r : Ref) (op : String)
    (h : ¬((r.owner = "" ∧ r.repo ≠ "") ∨ ((r.owner = "" ∨ r.repo = "") ∧ r.path ≠ ""))) :
    r.validate op ≠ .panicked := by
  unfold Ref.validate
  rw [if_neg h]
  by_cases h1 : r.owner = ""
  · rw [if_pos h1]
    exact fun hcon => ValidateOut.noConfusion hcon
  · rw [if_neg h1]
    by_cases h2 : r.path ≠ "" ∧ ¬ validPath r.path
    · rw [if_pos h2]
      exact fun hcon => ValidateOut.noConfusion hcon
    · rw [if_neg h2]
      exact fun hcon => ValidateOut.noConfusion hcon

theorem getRepoContent_ne_panicked (remote : Remote) (r : Ref) :
    getRepoContent remote r ≠ .panicked := by
  unfold getRepoContent
  repeat' split
  all_goals simp

theorem listRepositories_ne_panicked (remote : Remote) (fuel : Nat) (owner : String) :
    listRepositories remote fuel owner ≠ .panicked := by
  unfold listRepositories
  repeat' split
  all_goals simp

theorem open_unfold_valid (remote : Remote) (fuel : Nat) (f : Fsys) (name : String)
    (hv : validPath name = true) :
    Fsys.Open remote fuel f name =
      match (f.ref.join name).validate "open" with
      | .panicked => .panicked
      | .fail e => .err e
      | .ok =>
        if (f.ref.join name).repo = "" then
          listRepositories remote fuel (f.ref.join name).owner
        else getRepoContent remote (f.ref.join name) := by
  unfold Fsys.Open
  rw [if_neg (by simp [hv])]

theorem open_ne_panicked (remote : Remote) (fuel : Nat) (f : Fsys) (name : String)
    (hval : (f.ref.join name).validate "open" ≠ .panicked) :
    Fsys.Open remote fuel f name ≠ .panicked := by
  by_cases hv : validPath name = true
  · rw [open_unfold_valid remote fuel f name hv]
    rcases hcase : (f.ref.join name).validate "open" with _ | e | _
    · exact absurd hcase hval
    · exact fun hcon => OpenResult.noConfusion hcon
    · show (if (f.ref.join name).repo = "" then
          listRepositories remote fuel (f.ref.join name).owner
        else getRepoContent remote (f.ref.join name)) ≠ .panicked
      by_cases hrr : (f.ref.join name).repo = ""
      · rw [if_pos hrr]
        exact listRepositories_ne_panicked remote fuel _
      · rw [if_neg hrr]
        exact getRepoContent_ne_panicked remote _
  · unfold Fsys.Open
    rw [if_pos (by simpa using hv)]
    exact fun hcon => OpenResult.noConfusion hcon

theorem join_empty_owner_set (rp pa p : String) (hrp : rp ≠ "")
    (hv : validPath p = true) (hdp : p ≠ ".") :
    (Ref.join ⟨"", rp, pa⟩ p).owner ≠ "" ∧ (Ref.join ⟨"", rp, pa⟩ p).repo = rp := by
  have hseg := segments_of_valid p hv hdp
  have hplain := validPath_all_plain p hv hdp
  have hne' : p ≠ "" := validPath_ne_empty p hv
  rcases h0 : splitChar p.data with _ | ⟨s1, rest⟩
  · exact absurd h0 (splitChar_ne_nil p.data)
  · rw [h0] at hseg hplain
    have hs1 : String.mk s1 ≠ "" :=
      mk_ne_empty s1 (isPlain_ne_nil s1 (List.all_eq_true.mp hplain s1 (by simp)))
    constructor <;>
      simp [Ref.join, hseg, hdp, hne', hrp, hs1]

/-- C1: `Open`/`join` resolves (owner, repository, path) by the
segment-consumption rule — a base pinning both owner and repository
path-joins the name onto its path, otherwise the name's slash-separated
segments fill owner first, then repository, then the remainder becomes
the path; in particular joining "o/r/sub/file" onto an empty reference
equals joining "sub/file" onto a reference pinned to owner "o" and
repository "r". -/
theorem c1_join_segment_rule (r : Ref) (p : String) (hInv : refInvariant r)
    (hv : validPath p = true) :
    r.join p = fillSpec r p
    ∧ Ref.join ⟨"", "", ""⟩ "o/r/sub/file" = Ref.join ⟨"o", "r", ""⟩ "sub/file" :=
  ⟨join_eq_fillSpec r p hInv hv, by decide⟩

/-- Witness for C1 at the empty base and the path "o/r/sub/file". -/
theorem c1_witness :
    Ref.join ⟨"", "", ""⟩ "o/r/sub/file" = fillSpec ⟨"", "", ""⟩ "o/r/sub/file"
    ∧ Ref.join ⟨"", "", ""⟩ "o/r/sub/file" = Ref.join ⟨"o", "r", ""⟩ "sub/file" :=
  c1_join_segment_rule ⟨"", "", ""⟩ "o/r/sub/file" (by decide) (by decide)

/-- C2: `ReadDir n` obeys the two-mode contract — for `n ≤ 0` it returns
every entry from the cursor to the end, moves the cursor to the end and
reports no error; for `n > 0` on an exhausted directory it returns an
empty batch with the end-of-directory signal; for `n > 0` with entries
remaining it returns `min n remaining` entries from the cursor, advances
the cursor by that count, and signals end-of-directory on that non-empty
batch exactly when the list is thereby exhausted and `n` exceeded the
count returned. -/
theorem c2_readdir_contract (d : Dir) (h : d.offset ≤ d.entries.length) :
    (∀ n : Int, n ≤ 0 →
      d.ReadDir n = ({ d with offset := d.entries.length },
        d.entries.drop d.offset, false))
    ∧ (∀ n : Int, 0 < n → d.offset = d.entries.length → d.ReadDir n = (d, [], true))
    ∧ (∀ n : Int, 0 < n → d.offset < d.entries.length →
        (d.ReadDir n).2.1
          = (d.entries.drop d.offset).take (min n.toNat (d.entries.length - d.offset))
        ∧ (d.ReadDir n).1
          = { d with offset := d.offset + min n.toNat (d.entries.length - d.offset) }
        ∧ (d.ReadDir n).2.1 ≠ []
        ∧ ((d.ReadDir n).2.2 = true ↔
            (d.offset + min n.toNat (d.entries.length - d.offset) = d.entries.length
              ∧ min n.toNat (d.entries.length - d.offset) < n.toNat))) := by
  refine ⟨fun n hn => readDir_nonpos d n hn h,
    fun n hn he => readDir_pos_end d n hn he, fun n hn hlt => ?_⟩
  rw [readDir_pos_mid d n hn hlt]
  refine ⟨rfl, rfl, ?_, ?_⟩
  · apply List.ne_nil_of_length_pos
    simp
    omega
  · simp only [decide_eq_true_eq]
    constructor
    · intro hx
      exact ⟨by omega, hx.2⟩
    · intro hx
      exact ⟨by omega, hx.2⟩

/-- Witness for C2 on a concrete two-entry directory. -/
theorem c2_witness :
    Dir.ReadDir ⟨"d", [⟨"a", false, 1⟩, ⟨"b", true, 0⟩], 0⟩ (-1)
      = (⟨"d", [⟨"a", false, 1⟩, ⟨"b", true, 0⟩], 2⟩,
         [⟨"a", false, 1⟩, ⟨"b", true, 0⟩], false) := by
  have h := (c2_readdir_contract ⟨"d", [⟨"a", false, 1⟩, ⟨"b", true, 0⟩], 0⟩
    (by decide)).1 (-1) (by decide)
  simpa using h

/-- C3: the error translator maps nil to nil, a remote API error with
status 404 to a tagged not-found error, 403 or 401 to a tagged
permission error, any other API status to the original error untagged,
and any non-API error to itself unchanged. -/
theorem c3_error_translation (op path : String) :
    handleErr none op path = none
    ∧ handleErr (some (.api 404)) op path = some (.pathError op path .errNotExist)
    ∧ handleErr (some (.api 403)) op path = some (.pathError op path .errPermission)
    ∧ handleErr (some (.api 401)) op path = some (.pathError op path .errPermission)
    ∧ (∀ status : Nat, status ≠ 404 → status ≠ 403 → status ≠ 401 →
        handleErr (some (.api status)) op path = some (.raw (.api status)))
    ∧ (∀ tag : String, handleErr (some (.other tag)) op path
        = some (.raw (.other tag))) := by
  refine ⟨rfl, rfl, rfl, rfl, ?_, fun tag => rfl⟩
  intro status h4 h3 h1
  unfold handleErr
  dsimp only
  rw [if_neg h4, if_neg (by simp [h3, h1])]

/-- Witness for C3 at a status outside the mapped set. -/
theorem c3_witness :
    handleErr (some (.api 500)) "open" "/o/r" = some (.raw (.api 500)) :=
  (c3_error_translation "open" "/o/r").2.2.2.2.1 500 (by decide) (by decide) (by decide)

/-- C4: for a fully resolved reference, fetch-content wraps a single-file
response into a `file` with the remote-reported name, size and decoded
content; wraps a listing response into a `dir` named after the last path
component of the reference (the repository name when the path is empty
or the root "."), whose entries are directory-typed exactly when the
item type equals "dir" and carry the item size; and turns an empty
response with no error into the internal "invalid response" error, which
is not classified as not-found. -/
theorem c4_fetch_content (remote : Remote) (r : Ref) (ho : segOk r.owner)
    (hr : segOk r.repo) (hpa : r.path = "" ∨ validPath r.path = true) :
    (∀ fc dc c, remote.getContents r.owner r.repo r.path = (some fc, dc, none) →
      fc.content = .ok c → getRepoContent remote r = .ok (.file fc.name fc.size c))
    ∧ (∀ items, remote.getContents r.owner r.repo r.path = (none, some items, none) →
      getRepoContent remote r = .ok (.dir
        { name := if r.path = "" ∨ r.path = "." then r.repo else pathBase r.path,
          entries := items.map fun c =>
            { name := c.name, isDir := c.typ = "dir", size := c.size },
          offset := 0 }))
    ∧ (remote.getContents r.owner r.repo r.path = (none, none, none) →
      getRepoContent remote r
        = .err (.simple "invalid response: no file or directory returned"))
    ∧ FsError.isNotExist (.simple "invalid response: no file or directory returned")
      = false := by
  refine ⟨?_, ?_, ?_, rfl⟩
  · intro fc dc c hgc hc
    unfold getRepoContent
    rw [hgc]
    dsimp only
    rw [show handleErr none "open" r.string = none from rfl]
    dsimp only
    rw [hc]
  · intro items hgc
    unfold getRepoContent
    rw [hgc]
    dsimp only
    rw [show handleErr none "open" r.string = none from rfl]
    dsimp only
    obtain ⟨o, rp, pa⟩ := r
    rw [show pathBase (Ref.string ⟨o, rp, pa⟩)
        = if pa = "" ∨ pa = "." then rp else pathBase pa
      from pathBase_string o rp pa ho hr hpa]
  · intro hgc
    unfold getRepoContent
    rw [hgc]
    dsimp only
    rw [show handleErr none "open" r.string = none from rfl]

/-- Witness for C4: a listing response on a pinned repository root. -/
theorem c4_witness :
    getRepoContent testRemote ⟨"o", "r", ""⟩
      = .ok (.dir ⟨"r", [⟨"a.txt", false, 5⟩], 0⟩) := by
  have h := (c4_fetch_content testRemote ⟨"o", "r", ""⟩ (by constructor <;> decide)
    (by constructor <;> decide) (by decide)).2.1 [⟨"a.txt", "file", 5⟩] rfl
  simpa using h

/-- C5 counterexample: `Open("")` on an unscoped handle is rejected by
path validation with `fs.ErrInvalid` before any resolution, not with the
"owner is missing" error the claim names for it. -/
theorem c5_counterexample :
    Fsys.Open testRemote 1 ⟨⟨"", "", ""⟩⟩ "" = .err (.pathError "open" "" .errInvalid)
    ∧ (FsError.pathError "open" "" .errInvalid
        ≠ .pathError "open" "" (.msg "owner is missing")) := by
  constructor
  · decide
  · decide

/-- C5 (amended): when a well-formed path resolves, on an
invariant-respecting handle, to a reference with an empty owner (only
`Open(".")` on an unscoped handle does), `Open` returns the structured
"owner is missing" error at the empty path for every remote and fuel —
so no remote call is consulted; `Open("")` is instead rejected as an
invalid path before resolution. -/
theorem c5_owner_missing (f : Fsys) (name : String) (hInv : refInvariant f.ref)
    (hv : validPath name = true) (h0 : (f.ref.join name).owner = "")
    (remote : Remote) (fuel : Nat) :
    Fsys.Open remote fuel f name
      = .err (.pathError "open" "" (.msg "owner is missing")) := by
  have hInv' := join_preserves_inv f.ref name hInv hv
  have hrepo := (inv_owner_empty _ hInv' h0).1
  have hpath := (inv_owner_empty _ hInv' h0).2
  rw [open_unfold_valid remote fuel f name hv]
  have hval : (f.ref.join name).validate "open"
      = .fail (.pathError "open" "" (.msg "owner is missing")) := by
    unfold Ref.validate
    rw [if_neg (by simp [h0, hrepo, hpath]), if_pos h0]
  rw [hval]

/-- Witness for C5 (amended) at `Open(".")` on an unscoped handle. -/
theorem c5_witness :
    Fsys.Open testRemote 0 ⟨⟨"", "", ""⟩⟩ "."
      = .err (.pathError "open" "" (.msg "owner is missing")) :=
  c5_owner_missing ⟨⟨"", "", ""⟩⟩ "." (by decide) (by decide) (by decide) testRemote 0

/-- C6: draining a fresh directory with `ReadDir 3` yields, concatenated,
the same entries in the same order as a single `ReadDir (-1)` on a fresh
handle, in chunks of size at most 3, with the end-of-directory signal
only on the final chunk. -/
theorem c6_chunked_roundtrip (name : String) (entries : List DirEntry) :
    ((List.map Prod.fst (drainReadDir (entries.length + 1) ⟨name, entries, 0⟩ 3)).flatten
      = (Dir.ReadDir ⟨name, entries, 0⟩ (-1)).2.1)
    ∧ (∀ c ∈ drainReadDir (entries.length + 1) ⟨name, entries, 0⟩ 3, c.1.length ≤ 3)
    ∧ (∀ c ∈ (drainReadDir (entries.length + 1) ⟨name, entries, 0⟩ 3).dropLast,
        c.2 = false)
    ∧ (drainReadDir (entries.length + 1) ⟨name, entries, 0⟩ 3).getLast?.map Prod.snd
      = some true := by
  obtain ⟨hf, hl, hne, hdl, hlast⟩ :=
    drain_spec (entries.length + 1) ⟨name, entries, 0⟩ (by simp) (by simp)
  refine ⟨?_, hl, hdl, hlast⟩
  rw [hf, readDir_nonpos _ _ (by norm_num) (by simp)]

/-- C7: when the resolved reference has an owner but no repository,
`Open` delegates to `listRepositories`, which walks every page of the
remote listing (per `pagesVisited`, until no further page is reported,
with no partial results) and returns a directory whose entries are the
accumulated repository names, each directory-typed with size 0. -/
theorem c7_list_repositories (remote : Remote) (fuel : Nat) (f : Fsys)
    (name : String) (ps : List (List String)) (hv : validPath name = true)
    (hro : (f.ref.join name).owner ≠ "") (hrr : (f.ref.join name).repo = "")
    (hrp : (f.ref.join name).path = "")
    (hpages : pagesVisited remote (f.ref.join name).owner fuel 0 = some ps) :
    Fsys.Open remote fuel f name
      = .ok (.dir ⟨(f.ref.join name).owner,
          ps.flatten.map (fun n => (⟨n, true, 0⟩ : DirEntry)), 0⟩)
    ∧ ∀ e ∈ ps.flatten.map (fun n => (⟨n, true, 0⟩ : DirEntry)),
        e.isDir = true ∧ e.size = 0 := by
  constructor
  · rw [open_unfold_valid remote fuel f name hv]
    have hval : (f.ref.join name).validate "open" = .ok := by
      unfold Ref.validate
      rw [if_neg (by simp [hro, hrp]), if_neg hro, if_neg (by simp [hrp])]
    rw [hval]
    dsimp only
    rw [if_pos hrr]
    unfold listRepositories
    rw [listReposLoop_pages remote _ fuel 0 [] ps hpages]
    dsimp only
    simp
  · intro e he
    rcases List.mem_map.mp he with ⟨n, _, rfl⟩
    exact ⟨rfl, rfl⟩

/-- Witness for C7: a two-page listing for owner "acct". -/
theorem c7_witness :
    Fsys.Open pagedRemote 5 ⟨⟨"", "", ""⟩⟩ "acct"
      = .ok (.dir ⟨"acct", [⟨"r1", true, 0⟩, ⟨"r2", true, 0⟩, ⟨"r3", true, 0⟩], 0⟩) := by
  have h := (c7_list_repositories pagedRemote 5 ⟨⟨"", "", ""⟩⟩ "acct"
    [["r1", "r2"], ["r3"]] (by decide) (by decide) (by decide) (by decide)
    (by decide)).1
  simpa using h

/-- C8: a name that is not a well-formed relative path makes `Open`
return an invalid-argument error tagged ("open", name) and `Sub` an
invalid-argument error tagged ("sub", name), for every remote and fuel —
before any remote call. -/
theorem c8_invalid_path (name : String) (h : validPath name = false)
    (remote : Remote) (fuel : Nat) (f : Fsys) :
    Fsys.Open remote fuel f name = .err (.pathError "open" name .errInvalid)
    ∧ Fsys.Sub f name = .error (.pathError "sub" name .errInvalid) := by
  constructor
  · unfold Fsys.Open
    rw [if_pos (by simp [h])]
  · unfold Fsys.Sub
    rw [if_pos (by simp [h])]

/-- Witness for C8 at the absolute path "/abs". -/
theorem c8_witness :
    Fsys.Open testRemote 0 ⟨⟨"", "", ""⟩⟩ "/abs"
      = .err (.pathError "open" "/abs" .errInvalid)
    ∧ Fsys.Sub ⟨⟨"", "", ""⟩⟩ "/abs" = .error (.pathError "sub" "/abs" .errInvalid) :=
  c8_invalid_path "/abs" (by decide) testRemote 0 ⟨⟨"", "", ""⟩⟩

/-- C9: `join` preserves the reference invariant for every
invariant-satisfying base and well-formed relative name, so the panic
branch of `validate` is unreachable on such references. -/
theorem c9_join_invariant (r : Ref) (name : String) (hInv : refInvariant r)
    (hv : validPath name = true) :
    refInvariant (r.join name) ∧ ∀ op, (r.join name).validate op ≠ .panicked := by
  have h := join_preserves_inv r name hInv hv
  refine ⟨h, fun op => ?_⟩
  apply validate_ne_panicked
  intro hcon
  rcases hcon with ⟨h1, h2⟩ | ⟨h1, h2⟩
  · exact h.1 h2 h1
  · rcases h1 with h1 | h1
    · exact (h.2 h2).1 h1
    · exact (h.2 h2).2 h1

/-- Witness for C9 at the empty base and the path "o/r/x". -/
theorem c9_witness :
    refInvariant (Ref.join ⟨"", "", ""⟩ "o/r/x")
    ∧ (Ref.join ⟨"", "", ""⟩ "o/r/x").validate "open" ≠ .panicked :=
  ⟨(c9_join_invariant ⟨"", "", ""⟩ "o/r/x" (by decide) (by decide)).1,
   (c9_join_invariant ⟨"", "", ""⟩ "o/r/x" (by decide) (by decide)).2 "open"⟩

/-- C10 counterexample: `New` with `WithRepository("", "somerepo")` does
pin an invariant-violating reference, but `Open("x")` on that handle
fills the owner from the path segment and does not hit the panic branch
— so not every well-formed `Open` panics. -/
theorem c10_counterexample :
    ¬ refInvariant (New [withRepository "" "somerepo"]).ref
    ∧ Fsys.Open testRemote 1 (New [withRepository "" "somerepo"]) "x" ≠ .panicked := by
  constructor
  · decide
  · decide

/-- C10 (amended): `New [WithRepository "" repo]` pins a reference that
violates the invariant (repository set, owner empty); a subsequent
`Open(".")` hits the validate panic branch, while an `Open` of any
nonempty well-formed path consumes its first segment as the owner and
does not panic. -/
theorem c10_unvalidated_repo_option (remote : Remote) (fuel : Nat) :
    (New [withRepository "" "somerepo"]).ref = ⟨"", "somerepo", ""⟩
    ∧ ¬ refInvariant (New [withRepository "" "somerepo"]).ref
    ∧ Fsys.Open remote fuel (New [withRepository "" "somerepo"]) "." = .panicked
    ∧ ∀ p, validPath p = true → p ≠ "." →
        Fsys.Open remote fuel (New [withRepository "" "somerepo"]) p ≠ .panicked := by
  have hNew : New [withRepository "" "somerepo"] = ⟨⟨"", "somerepo", ""⟩⟩ := by decide
  refine ⟨by rw [hNew], by rw [hNew]; decide, ?_, ?_⟩
  · rw [hNew]
    rw [open_unfold_valid remote fuel _ "." (by decide)]
    rw [show (Fsys.mk ⟨"", "somerepo", ""⟩).ref.join "." = ⟨"", "somerepo", ""⟩
      from by decide]
    rw [show Ref.validate ⟨"", "somerepo", ""⟩ "open" = .panicked from by decide]
  · intro p hvp hdp
    rw [hNew]
    apply open_ne_panicked
    apply validate_ne_panicked
    have hj := join_empty_owner_set "somerepo" "" p (by decide) hvp hdp
    intro hcon
    rcases hcon with ⟨h1, _⟩ | ⟨h1, _⟩
    · exact hj.1 h1
    · rcases h1 with h1 | h1
      · exact hj.1 h1
      · rw [hj.2] at h1
        exact absurd h1 (by decide)

/-- Witness for C10 (amended), projected at the path "x". -/
theorem c10_witness :
    Fsys.Open testRemote 1 (New [withRepository "" "somerepo"]) "x" ≠ .panicked :=
  (c10_unvalidated_repo_option testRemote 1).2.2.2 "x" (by decide) (by decide)
